import Mathlib

/-!
Verification of the history-partitioning core of git-journal
(`GitJournal::parse_log` in `src/lib.rs`).

The commit-message parser (`parser::Parser.parse_commit_message`) lives in a
module outside the provided sources; `parse_log` only observes whether it
returns `Ok(parsed)` or `Err(e)`, so it is embedded as an abstract parameter
`parse : String → Option α` where `α` stands for `ParsedCommit`.
-/

namespace GitJournal

/-- Boolean test that `pat` is an initial segment of the second list
(character-level building block of Rust's `str::contains`). -/
def headMatch : List Char → List Char → Bool
  | [], _ => true
  | _ :: _, [] => false
  | a :: as, b :: bs => a == b && headMatch as bs

/-- Boolean test that `pat` occurs as a contiguous sublist. -/
def subMatch (pat : List Char) : List Char → Bool
  | [] => headMatch pat []
  | b :: bs => headMatch pat (b :: bs) || subMatch pat bs

/-- Rust `s.contains(pat)` for string slices: substring occurrence.
Note that the empty pattern occurs in every string. -/
def strContains (s pat : String) : Bool := subMatch pat.toList s.toList

/-- Rust `UTC.timestamp(secs, 0).date()`: the calendar date of a Unix timestamp,
represented as the (floor) number of whole days since the epoch. -/
def dateOfSeconds (s : Int) : Int := Int.fdiv s 86400

/-- A commit record delivered by the revwalk: object id (opaque, embedded as
`Nat`), commit time in seconds, and the commit message. -/
structure Commit where
  oid : Nat
  time : Int
  message : String
deriving DecidableEq

/-- The `ParsedTag` record (name and date) from the parser module: a release header. -/
structure ParsedTag where
  name : String
  date : Int
deriving DecidableEq

/-- The value parameters of `GitJournal::parse_log`
`(tag_skip_pattern, max_tags_count, all, skip_unreleased)`. -/
structure Opts where
  tagSkipPattern : String
  maxTagsCount : Nat
  all : Bool
  skipUnreleased : Bool
deriving DecidableEq

/-- The mutable state threaded through the labelled revloop of `parse_log`:
`self.parse_result`, `current_entries`, `parsed_tags`, `current_tag`. -/
structure LogState (α : Type) where
  result : List (ParsedTag × List α)
  entries : List α
  parsedTags : Nat
  currentTag : ParsedTag
deriving DecidableEq

/-- The sentinel group name (`unreleased_str` in the source). -/
def unreleasedStr : String := "Unreleased"

/-- The tag names attached to commit `oid` that survive the filter
`tag.0.as_bytes() == oid.as_bytes() && !tag.1.contains(tag_skip_pattern)`,
in catalog (`self.tags`) order. -/
def matchingTagNames (tags : List (Nat × String)) (pat : String) (oid : Nat) :
    List String :=
  (tags.filter (fun t => t.1 == oid && !strContains t.2 pat)).map Prod.snd

/-- Lines 290-293 of `parse_log`: if `current_entries` is non-empty, push
`(current_tag, current_entries)` onto `parse_result` and clear the entries. -/
def sealIfNonempty (st : LogState α) : LogState α :=
  if st.entries.isEmpty then st
  else { st with result := st.result ++ [(st.currentTag, st.entries)], entries := [] }

/-- The inner `for tag in self.tags.iter().filter(...)` loop of `parse_log`
over the matching tag names of one commit.  `.error st` models the labelled
break out of the revloop (lines 296-298, condition
`!all && index > 0 && parsed_tags > *max_tags_count`), `.ok st` normal
completion.  Each non-breaking iteration increments `parsed_tags` and installs
the tag as `current_tag` with the commit's calendar date (lines 301-306). -/
def processTags (all : Bool) (maxTagsCount : Nat) (index : Nat) (date : Int) :
    List String → LogState α → Except (LogState α) (LogState α)
  | [], st => .ok st
  | name :: rest, st =>
    let st1 := sealIfNonempty st
    if all = false ∧ 0 < index ∧ maxTagsCount < st1.parsedTags then
      .error st1
    else
      processTags all maxTagsCount index date rest
        { st1 with parsedTags := st1.parsedTags + 1,
                   currentTag := { name := name, date := date } }

/-- Lines 309-320 of `parse_log`: skip the commit when `skip_unreleased` holds
and `current_tag` is still the sentinel; otherwise feed the message to the
parser and append the parsed entry on success (a parse failure only logs). -/
def commitStep (skipUnreleased : Bool) (parse : String → Option α) (c : Commit)
    (st : LogState α) : LogState α :=
  if skipUnreleased = true ∧ st.currentTag.name = unreleasedStr then st
  else
    match parse c.message with
    | some p => { st with entries := st.entries ++ [p] }
    | none => st

/-- One full iteration of the labelled revloop on commit `c` at enumeration `index`. -/
def revStep (tags : List (Nat × String)) (o : Opts) (parse : String → Option α)
    (index : Nat) (c : Commit) (st : LogState α) :
    Except (LogState α) (LogState α) :=
  match processTags o.all o.maxTagsCount index (dateOfSeconds c.time)
      (matchingTagNames tags o.tagSkipPattern c.oid) st with
  | .error s => .error s
  | .ok s => .ok (commitStep o.skipUnreleased parse c s)

/-- The labelled revloop over the enumerated revwalk output; a break from the
inner tag loop returns the state reached so far. -/
def revLoop (tags : List (Nat × String)) (o : Opts) (parse : String → Option α) :
    Nat → List Commit → LogState α → LogState α
  | _, [], st => st
  | index, c :: cs, st =>
    match revStep tags o parse index c st with
    | .error s => s
    | .ok s => revLoop tags o parse (index + 1) cs s

/-- Lines 322-325: after the loop, push the last `(current_tag, entries)`
pair when the entries are non-empty, and read off `self.parse_result`. -/
def finalSeal (st : LogState α) : List (ParsedTag × List α) :=
  if st.entries.isEmpty then st.result
  else st.result ++ [(st.currentTag, st.entries)]

/-- Rust `GitJournal::parse_log` after revision resolution: fold the revwalk
commits starting from `parse_result = prevResult`, `parsed_tags = 1`,
`current_tag = ParsedTag { name: "Unreleased", date: UTC::today() }`, then
seal the final group when its entries are non-empty (lines 322-325). -/
def parse_log (tags : List (Nat × String)) (o : Opts) (parse : String → Option α)
    (today : Int) (commits : List Commit)
    (prevResult : List (ParsedTag × List α)) : List (ParsedTag × List α) :=
  finalSeal (revLoop tags o parse 0 commits
    { result := prevResult, entries := [], parsedTags := 1,
      currentTag := { name := unreleasedStr, date := today } })

/-- The whole of `parse_log` including revision-range resolution (lines
252-272): the `try!(self.repo.revparse(...))` chain either fails before the
loop is entered — leaving `self.parse_result` untouched — or yields the
ordered commit list that the loop consumes.  The returned pair is the stored
`parse_result` field together with the `Result<(), Error>` value. -/
def parse_log_call (resolution : Except String (List Commit))
    (tags : List (Nat × String)) (o : Opts) (parse : String → Option α)
    (today : Int) (prevResult : List (ParsedTag × List α)) :
    List (ParsedTag × List α) × Except String Unit :=
  match resolution with
  | .error e => (prevResult, .error e)
  | .ok commits => (parse_log tags o parse today commits prevResult, .ok ())

/-- The state carried out of the inner tag loop, in both the breaking and the
non-breaking case. -/
def postState : Except (LogState α) (LogState α) → LogState α
  | .error s => s
  | .ok s => s

/-- Prepend previously stored groups to the `parse_result` component. -/
def pushRes (r : List (ParsedTag × List α)) (st : LogState α) : LogState α :=
  { st with result := r ++ st.result }

/-! ### Frame lemmas: the loop only ever appends to `parse_result` -/

lemma sealIfNonempty_pushRes (r : List (ParsedTag × List α)) (st : LogState α) :
    sealIfNonempty (pushRes r st) = pushRes r (sealIfNonempty st) := by
  simp only [sealIfNonempty, pushRes]
  split <;> simp_all [List.append_assoc]

lemma processTags_pushRes (a : Bool) (m i : Nat) (d : Int)
    (r : List (ParsedTag × List α)) :
    ∀ (ts : List String) (st : LogState α),
      processTags a m i d ts (pushRes r st)
        = match processTags a m i d ts st with
          | .ok s => .ok (pushRes r s)
          | .error s => .error (pushRes r s)
  | [], st => by simp [processTags]
  | name :: rest, st => by
    simp only [processTags, sealIfNonempty_pushRes]
    have hpt : (pushRes r (sealIfNonempty st)).parsedTags
        = (sealIfNonempty st).parsedTags := rfl
    rw [hpt]
    split
    · rfl
    · have harg : ({ pushRes r (sealIfNonempty st) with
          parsedTags := (sealIfNonempty st).parsedTags + 1,
          currentTag := { name := name, date := d } } : LogState α)
        = pushRes r { sealIfNonempty st with
            parsedTags := (sealIfNonempty st).parsedTags + 1,
            currentTag := { name := name, date := d } } := rfl
      rw [harg, processTags_pushRes a m i d r rest]

lemma commitStep_pushRes (sk : Bool) (parse : String → Option α) (c : Commit)
    (r : List (ParsedTag × List α)) (st : LogState α) :
    commitStep sk parse c (pushRes r st) = pushRes r (commitStep sk parse c st) := by
  simp only [commitStep, pushRes]
  split
  · rfl
  · cases parse c.message <;> rfl

lemma revStep_pushRes (tags : List (Nat × String)) (o : Opts)
    (parse : String → Option α) (i : Nat) (c : Commit)
    (r : List (ParsedTag × List α)) (st : LogState α) :
    revStep tags o parse i c (pushRes r st)
      = match revStep tags o parse i c st with
        | .ok s => .ok (pushRes r s)
        | .error s => .error (pushRes r s) := by
  simp only [revStep, processTags_pushRes]
  rcases h : processTags o.all o.maxTagsCount i (dateOfSeconds c.time)
      (matchingTagNames tags o.tagSkipPattern c.oid) st with s | s <;>
    simp [h, commitStep_pushRes]

lemma revLoop_pushRes (tags : List (Nat × String)) (o : Opts)
    (parse : String → Option α) (r : List (ParsedTag × List α)) :
    ∀ (cs : List Commit) (i : Nat) (st : LogState α),
      revLoop tags o parse i cs (pushRes r st)
        = pushRes r (revLoop tags o parse i cs st)
  | [], _, st => rfl
  | c :: cs, i, st => by
    simp only [revLoop, revStep_pushRes]
    rcases h : revStep tags o parse i c st with s | s
    · simp [h]
    · simp [h, revLoop_pushRes tags o parse r cs (i + 1) s]

/-- Claim C9: `parse_log` never clears or modifies previously stored groups —
the stored result after a call with prior contents `prev` is `prev` followed
by exactly the groups the same call would produce from an empty store. -/
theorem parse_log_accumulates (tags : List (Nat × String)) (o : Opts)
    (parse : String → Option α) (today : Int) (commits : List Commit)
    (prev : List (ParsedTag × List α)) :
    parse_log tags o parse today commits prev
      = prev ++ parse_log tags o parse today commits [] := by
  unfold parse_log
  have h0 : ({ result := prev, entries := [], parsedTags := 1,
               currentTag := { name := unreleasedStr, date := today } } : LogState α)
      = pushRes prev { result := [], entries := [], parsedTags := 1,
                       currentTag := { name := unreleasedStr, date := today } } := by
    simp [pushRes]
  rw [h0, revLoop_pushRes]
  set s := revLoop tags o parse 0 commits
    { result := [], entries := [], parsedTags := 1,
      currentTag := { name := unreleasedStr, date := today } } with hs
  simp only [finalSeal, pushRes]
  split <;> simp

/-- Claim C7: when revision resolution fails, `parse_log` returns the error
and the stored `parse_result` is unchanged — no group is produced. -/
theorem parse_log_call_resolution_error (resolution : Except String (List Commit))
    (tags : List (Nat × String)) (o : Opts) (parse : String → Option α)
    (today : Int) (prev : List (ParsedTag × List α)) (e : String)
    (h : resolution = Except.error e) :
    parse_log_call resolution tags o parse today prev = (prev, Except.error e) := by
  subst h; rfl

/-! ### Sealing discipline: groups are only pushed with non-empty entries -/

lemma processTags_result_cases (a : Bool) (m i : Nat) (d : Int) :
    ∀ (ts : List String) (st : LogState α),
      (postState (processTags a m i d ts st)).result = st.result
      ∨ (st.entries ≠ [] ∧ (postState (processTags a m i d ts st)).result
            = st.result ++ [(st.currentTag, st.entries)]) := by
  intro ts
  induction ts with
  | nil => intro st; left; rfl
  | cons name rest ih =>
    intro st
    simp only [processTags]
    rcases hE : st.entries with _ | ⟨e, es⟩
    · have h1 : sealIfNonempty st = st := by simp [sealIfNonempty, hE]
      rw [h1]
      split

      · left; rfl
      · rcases ih { st with parsedTags := st.parsedTags + 1,
                            currentTag := { name := name, date := d } } with h | ⟨hne, _⟩
        · left; exact h
        · exact absurd hE (by simpa using hne)
    · have h1 : sealIfNonempty st
          = { st with result := st.result ++ [(st.currentTag, e :: es)],
                      entries := [] } := by
        simp [sealIfNonempty, hE]
      rw [h1]
      split
      · right; exact ⟨by simp, rfl⟩
      · rcases ih { st with result := st.result ++ [(st.currentTag, e :: es)],
                            entries := [], parsedTags := st.parsedTags + 1,
                            currentTag := { name := name, date := d } } with h | ⟨hne2, _⟩
        · right; exact ⟨by simp, h⟩
        · exact absurd rfl hne2

lemma processTags_nonempty_inv (a : Bool) (m i : Nat) (d : Int)
    (ts : List String) (st : LogState α) (h : ∀ g ∈ st.result, g.2 ≠ []) :
    ∀ g ∈ (postState (processTags a m i d ts st)).result, g.2 ≠ [] := by
  rcases processTags_result_cases a m i d ts st with hc | ⟨hne, hc⟩ <;> rw [hc]
  · exact h
  · intro g hg
    rcases List.mem_append.1 hg with h1 | h2
    · exact h g h1
    · have : g = (st.currentTag, st.entries) := by simpa using h2
      rw [this]; exact hne

lemma commitStep_result (sk : Bool) (parse : String → Option α) (c : Commit)
    (st : LogState α) : (commitStep sk parse c st).result = st.result := by
  simp only [commitStep]
  split
  · rfl
  · cases parse c.message <;> rfl

lemma revLoop_nonempty_inv (tags : List (Nat × String)) (o : Opts)
    (parse : String → Option α) :
    ∀ (cs : List Commit) (i : Nat) (st : LogState α),
      (∀ g ∈ st.result, g.2 ≠ []) →
      ∀ g ∈ (revLoop tags o parse i cs st).result, g.2 ≠ [] := by
  intro cs
  induction cs with
  | nil => intro i st h; exact h
  | cons c cs ih =>
    intro i st h
    simp only [revLoop, revStep]
    rcases hp : processTags o.all o.maxTagsCount i (dateOfSeconds c.time)
        (matchingTagNames tags o.tagSkipPattern c.oid) st with s | s
    · have := processTags_nonempty_inv o.all o.maxTagsCount i (dateOfSeconds c.time)
        (matchingTagNames tags o.tagSkipPattern c.oid) st h
      rw [hp] at this
      exact this
    · have hs : ∀ g ∈ s.result, g.2 ≠ [] := by
        have := processTags_nonempty_inv o.all o.maxTagsCount i (dateOfSeconds c.time)
          (matchingTagNames tags o.tagSkipPattern c.oid) st h
        rw [hp] at this
        exact this
      refine ih (i + 1) (commitStep o.skipUnreleased parse c s) ?_
      rw [commitStep_result]
      exact hs

/-! ### Spans of commits that carry no qualifying tag -/

lemma revLoop_span_noTags (tags : List (Nat × String)) (o : Opts)
    (parse : String → Option α) (hskip : o.skipUnreleased = false) :
    ∀ (cs ds : List Commit) (i : Nat) (st : LogState α),
      (∀ c ∈ cs, matchingTagNames tags o.tagSkipPattern c.oid = []) →
      revLoop tags o parse i (cs ++ ds) st
        = revLoop tags o parse (i + cs.length) ds
            { st with entries := st.entries ++ cs.filterMap (fun c => parse c.message) } := by
  intro cs
  induction cs with
  | nil =>
    intro ds i st _
    simp
  | cons c cs ih =>
    intro ds i st h
    have hc : matchingTagNames tags o.tagSkipPattern c.oid = [] :=
      h c (List.mem_cons_self c cs)
    have hstep : revStep tags o parse i c st
        = .ok (commitStep o.skipUnreleased parse c st) := by
      simp [revStep, hc, processTags]
    simp only [List.cons_append, revLoop, hstep, List.append_eq]
    have hidx : i + 1 + cs.length = i + (c :: cs).length := by
      simp only [List.length_cons]; omega
    rcases hp : parse c.message with _ | p
    · have hcs : commitStep o.skipUnreleased parse c st = st := by
        simp [commitStep, hskip, hp]
      rw [hcs, ih ds (i + 1) st (fun x hmem => h x (List.mem_cons_of_mem _ hmem)), hidx]
      simp [List.filterMap_cons, hp]
    · have hcs : commitStep o.skipUnreleased parse c st
          = { st with entries := st.entries ++ [p] } := by
        simp [commitStep, hskip, hp]
      rw [hcs, ih ds (i + 1) _ (fun x hmem => h x (List.mem_cons_of_mem _ hmem)), hidx]
      simp [List.filterMap_cons, hp, List.append_assoc]

/-- Claim C3: when no commit carries a qualifying tag (and unreleased commits
are not being skipped, otherwise nothing is ever parsed), `parse_log` yields
exactly one "Unreleased" group holding every successfully parsed commit in
traversal order, and the empty commit range yields the empty group list. -/
theorem parse_log_no_qualifying_tags (tags : List (Nat × String)) (o : Opts)
    (parse : String → Option α) (today : Int) (commits : List Commit)
    (hskip : o.skipUnreleased = false)
    (hnotags : ∀ c ∈ commits, matchingTagNames tags o.tagSkipPattern c.oid = []) :
    parse_log tags o parse today commits []
      = (match commits.filterMap (fun c => parse c.message) with
         | [] => []
         | e :: es => [({ name := unreleasedStr, date := today }, e :: es)]) := by
  unfold parse_log
  have h0 := revLoop_span_noTags tags o parse hskip commits [] 0
    { result := [], entries := [], parsedTags := 1,
      currentTag := { name := unreleasedStr, date := today } } hnotags
  rw [List.append_nil] at h0
  rw [h0]
  simp only [revLoop]
  rcases hcase : commits.filterMap (fun c => parse c.message) with _ | ⟨e, es⟩
  · simp [finalSeal, hcase]
  · simp [finalSeal, hcase]

/-- Witness for C3: two untagged commits, one of which fails to parse. -/
theorem parse_log_no_qualifying_tags_witness :
    parse_log [] ⟨"rc", 1, true, false⟩
      (fun m => if m = "bad" then none else some m) 7
      [⟨2, 0, "feat: a"⟩, ⟨1, 0, "bad"⟩] []
      = (match ([⟨2, 0, "feat: a"⟩, ⟨1, 0, "bad"⟩] : List Commit).filterMap
            (fun c => if c.message = "bad" then none else some c.message) with
         | [] => []
         | e :: es => [({ name := unreleasedStr, date := 7 }, e :: es)]) :=
  parse_log_no_qualifying_tags [] ⟨"rc", 1, true, false⟩
    (fun m => if m = "bad" then none else some m) 7
    [⟨2, 0, "feat: a"⟩, ⟨1, 0, "bad"⟩] rfl (by decide)

/-- Claim C8: every group in the stored result of `parse_log` has a non-empty
entries list — a `(tag, entries)` pair is appended only when at least one
commit parsed successfully into it, both at tag boundaries and at the end of
traversal. -/
theorem parse_log_groups_nonempty (tags : List (Nat × String)) (o : Opts)
    (parse : String → Option α) (today : Int) (commits : List Commit)
    (prev : List (ParsedTag × List α)) (h : ∀ g ∈ prev, g.2 ≠ []) :
    ∀ g ∈ parse_log tags o parse today commits prev, g.2 ≠ [] := by
  unfold parse_log finalSeal
  set s := revLoop tags o parse 0 commits
    { result := prev, entries := [], parsedTags := 1,
      currentTag := { name := unreleasedStr, date := today } } with hs
  have hres : ∀ g ∈ s.result, g.2 ≠ [] := by
    refine revLoop_nonempty_inv tags o parse commits 0 _ ?_
    simpa using h
  split
  · exact hres
  · next hemp =>
    intro g hg
    rcases List.mem_append.1 hg with h1 | h2
    · exact hres g h1
    · have hg2 : g = (s.currentTag, s.entries) := by simpa using h2
      rw [hg2]
      intro hnil
      have hnil2 : s.entries = [] := hnil
      exact hemp (by simp [hnil2])

/-- Witness for C8 at a concrete run with one tagged and one unreleased group. -/
theorem parse_log_groups_nonempty_witness :
    (∀ g ∈ ([] : List (ParsedTag × List String)), g.2 ≠ [])
    ∧ ∀ g ∈ parse_log [(2, "v1.0")] ⟨"rc", 1, true, false⟩
        (fun m => some m) 7
        [⟨3, 300000, "feat: add X"⟩, ⟨2, 200000, "fix: correct Y"⟩,
         ⟨1, 100000, "feat: add Z"⟩] [], g.2 ≠ [] :=
  ⟨by decide,
   parse_log_groups_nonempty [(2, "v1.0")] ⟨"rc", 1, true, false⟩
     (fun m => some m) 7
     [⟨3, 300000, "feat: add X"⟩, ⟨2, 200000, "fix: correct Y"⟩,
      ⟨1, 100000, "feat: add Z"⟩] [] (by decide)⟩

/-! ### Per-commit step behaviour -/

/-- Claim C5: a commit whose message fails grammar parsing contributes no
entry, traversal continues, and the tag counter and current-group state are
exactly what they would be had the commit parsed — only the entry append is
omitted.  `p1` fails on this commit's message, `p2` succeeds with entry `e`;
both give the same break behaviour and the same state up to the appended
entry. -/
theorem parse_failure_skips_commit (tags : List (Nat × String)) (o : Opts)
    (p1 p2 : String → Option α) (i : Nat) (c : Commit) (st : LogState α) (e : α)
    (h1 : p1 c.message = none) (h2 : p2 c.message = some e) :
    (∀ s, processTags o.all o.maxTagsCount i (dateOfSeconds c.time)
        (matchingTagNames tags o.tagSkipPattern c.oid) st = .error s →
      revStep tags o p1 i c st = .error s ∧ revStep tags o p2 i c st = .error s)
    ∧ ∀ s, processTags o.all o.maxTagsCount i (dateOfSeconds c.time)
        (matchingTagNames tags o.tagSkipPattern c.oid) st = .ok s →
      revStep tags o p1 i c st = .ok s
      ∧ (∀ cs, revLoop tags o p1 i (c :: cs) st = revLoop tags o p1 (i + 1) cs s)
      ∧ ∃ s2, revStep tags o p2 i c st = .ok s2
          ∧ s2.result = s.result ∧ s2.parsedTags = s.parsedTags
          ∧ s2.currentTag = s.currentTag
          ∧ (s2.entries = s.entries ∨ s2.entries = s.entries ++ [e]) := by
  constructor
  · intro s hs
    constructor <;> simp [revStep, hs]
  · intro s hs
    have hc1 : commitStep o.skipUnreleased p1 c s = s := by
      simp only [commitStep, h1]
      split <;> rfl
    have hstep1 : revStep tags o p1 i c st = .ok s := by
      simp [revStep, hs, hc1]
    refine ⟨hstep1, fun cs => by simp [revLoop, hstep1], ?_⟩
    refine ⟨commitStep o.skipUnreleased p2 c s, by simp [revStep, hs], ?_⟩
    by_cases hcond : o.skipUnreleased = true ∧ s.currentTag.name = unreleasedStr
    · have hc2 : commitStep o.skipUnreleased p2 c s = s := by
        simp only [commitStep, if_pos hcond]
      rw [hc2]
      exact ⟨rfl, rfl, rfl, Or.inl rfl⟩
    · have hc2 : commitStep o.skipUnreleased p2 c s
          = { s with entries := s.entries ++ [e] } := by
        simp only [commitStep, if_neg hcond, h2]
      rw [hc2]
      exact ⟨rfl, rfl, rfl, Or.inr rfl⟩

/-- Witness for C5: one untagged commit, failing vs. succeeding parser. -/
theorem parse_failure_skips_commit_witness :
    ((fun _ : String => (none : Option String)) "m" = none
      ∧ (fun m : String => (some m : Option String)) "m" = some "m")
    ∧ revStep [] ⟨"", 1, true, false⟩ (fun _ => (none : Option String)) 0
        ⟨1, 0, "m"⟩ ⟨[], [], 1, ⟨"Unreleased", 0⟩⟩
        = .ok ⟨[], [], 1, ⟨"Unreleased", 0⟩⟩ :=
  ⟨⟨rfl, rfl⟩,
   ((parse_failure_skips_commit [] ⟨"", 1, true, false⟩
      (fun _ => (none : Option String)) (fun m => (some m : Option String)) 0
      ⟨1, 0, "m"⟩ ⟨[], [], 1, ⟨"Unreleased", 0⟩⟩ "m" rfl rfl).2
      ⟨[], [], 1, ⟨"Unreleased", 0⟩⟩ rfl).1⟩

/-- Claim C6: a commit visited while `skip_unreleased` holds and the current
group (after tag processing) is still the "Unreleased" sentinel is not
parsed — the step result is the post-tag state for every parser — and
traversal moves directly to the next commit. -/
theorem skip_unreleased_no_parse (tags : List (Nat × String)) (o : Opts)
    (i : Nat) (c : Commit) (st s : LogState α)
    (hskip : o.skipUnreleased = true)
    (hs : processTags o.all o.maxTagsCount i (dateOfSeconds c.time)
        (matchingTagNames tags o.tagSkipPattern c.oid) st = .ok s)
    (hname : s.currentTag.name = unreleasedStr) :
    (∀ parse : String → Option α, revStep tags o parse i c st = .ok s)
    ∧ ∀ (parse : String → Option α) (cs : List Commit),
        revLoop tags o parse i (c :: cs) st = revLoop tags o parse (i + 1) cs s := by
  have hcond : o.skipUnreleased = true ∧ s.currentTag.name = unreleasedStr :=
    ⟨hskip, hname⟩
  have hcs : ∀ parse : String → Option α, commitStep o.skipUnreleased parse c s = s := by
    intro parse
    simp only [commitStep, if_pos hcond]
  have hstep : ∀ parse : String → Option α, revStep tags o parse i c st = .ok s := by
    intro parse
    simp [revStep, hs, hcs]
  exact ⟨hstep, fun parse cs => by simp [revLoop, hstep]⟩

/-- Witness for C6: untagged commit under `skip_unreleased`, sentinel group. -/
theorem skip_unreleased_no_parse_witness :
    ((⟨"", 1, true, true⟩ : Opts).skipUnreleased = true
      ∧ processTags true 1 0 0 (matchingTagNames [] "" 1)
          (⟨[], [], 1, ⟨"Unreleased", 0⟩⟩ : LogState String)
          = .ok ⟨[], [], 1, ⟨"Unreleased", 0⟩⟩)
    ∧ revStep [] ⟨"", 1, true, true⟩ (fun m => (some m : Option String)) 0
        ⟨1, 0, "m"⟩ ⟨[], [], 1, ⟨"Unreleased", 0⟩⟩
        = .ok ⟨[], [], 1, ⟨"Unreleased", 0⟩⟩ :=
  ⟨⟨rfl, rfl⟩,
   (skip_unreleased_no_parse [] ⟨"", 1, true, true⟩ 0 ⟨1, 0, "m"⟩
      ⟨[], [], 1, ⟨"Unreleased", 0⟩⟩ ⟨[], [], 1, ⟨"Unreleased", 0⟩⟩
      rfl rfl rfl).1 (fun m => (some m : Option String))⟩

/-! ### Batches of co-located tags -/

lemma sealIfNonempty_entries (st : LogState α) : (sealIfNonempty st).entries = [] := by
  simp only [sealIfNonempty]
  split
  · next h => exact List.isEmpty_iff.1 h
  · rfl

lemma sealIfNonempty_parsedTags (st : LogState α) :
    (sealIfNonempty st).parsedTags = st.parsedTags := by
  simp only [sealIfNonempty]
  split <;> rfl

lemma processTags_ok_fields (a : Bool) (m i : Nat) (d : Int) :
    ∀ (ts : List String) (st st' : LogState α),
      processTags a m i d ts st = .ok st' → ts ≠ [] →
      (∀ n, ts.getLast? = some n → st'.currentTag = { name := n, date := d })
      ∧ st'.entries = [] ∧ st'.parsedTags = st.parsedTags + ts.length := by
  intro ts
  induction ts with
  | nil => intro st st' _ hne; exact absurd rfl hne
  | cons name rest ih =>
    intro st st' h _
    simp only [processTags] at h
    split at h
    · exact Except.noConfusion h
    · cases rest with
      | nil =>
        simp only [processTags] at h
        have hst' : ({ sealIfNonempty st with
            parsedTags := (sealIfNonempty st).parsedTags + 1,
            currentTag := { name := name, date := d } } : LogState α) = st' := by
          simpa using h
        subst hst'
        refine ⟨?_, sealIfNonempty_entries st, ?_⟩
        · intro n hn
          simp only [List.getLast?] at hn
          cases hn
          rfl
        · simp [sealIfNonempty_parsedTags]
      | cons r2 rs =>
        have hres := ih { sealIfNonempty st with
            parsedTags := (sealIfNonempty st).parsedTags + 1,
            currentTag := { name := name, date := d } } st' h (by simp)
        refine ⟨?_, hres.2.1, ?_⟩
        · intro n hn
          refine hres.1 n ?_
          simpa [List.getLast?_cons_cons] using hn
        · rw [hres.2.2]
          simp only [sealIfNonempty_parsedTags, List.length_cons]
          omega

/-- Counterexample to C4 as stated: with `all = false`, `max_tags_count = 1`
and a commit at index 1 carrying the two qualifying tags `["t2", "t3"]`, the
bounded-run break fires between the co-located tags, so the batch's last tag
"t3" does not become `current_tag` (processing stops with "t2" current). -/
theorem multi_tag_last_wins_counterexample :
    processTags false 1 1 5 ["t2", "t3"]
        (⟨[], ["e"], 1, ⟨"t1", 0⟩⟩ : LogState String)
      = .error ⟨[(⟨"t1", 0⟩, ["e"])], [], 2, ⟨"t2", 5⟩⟩
    ∧ (postState (processTags false 1 1 5 ["t2", "t3"]
        (⟨[], ["e"], 1, ⟨"t1", 0⟩⟩ : LogState String))).currentTag.name ≠ "t3" := by
  exact ⟨rfl, by decide⟩

/-- Claim C4 (amended): the tags of one commit are processed in catalog
order and at most one group is sealed for the whole batch (never an empty
one); provided the bounded-run stop is not triggered during the batch (the
inner loop returns normally), the last matching tag becomes the new
`current_tag`, the tag counter advances once per tag, and the entry buffer
is left empty. -/
theorem multi_tag_batch (a : Bool) (m i : Nat) (d : Int) (ts : List String)
    (st : LogState α) :
    ((postState (processTags a m i d ts st)).result = st.result
      ∨ (st.entries ≠ [] ∧ (postState (processTags a m i d ts st)).result
            = st.result ++ [(st.currentTag, st.entries)]))
    ∧ ∀ st' n, processTags a m i d ts st = .ok st' → ts.getLast? = some n →
        st'.currentTag = { name := n, date := d }
        ∧ st'.entries = [] ∧ st'.parsedTags = st.parsedTags + ts.length := by
  refine ⟨processTags_result_cases a m i d ts st, ?_⟩
  intro st' n hok hlast
  have hne : ts ≠ [] := by rintro rfl; simp at hlast
  have hres := processTags_ok_fields a m i d ts st st' hok hne
  exact ⟨hres.1 n hlast, hres.2.1, hres.2.2⟩

/-- Witness for C4 (amended) on a concrete two-tag batch with `all = true`. -/
theorem multi_tag_batch_witness :
    (processTags true 1 0 5 ["t2", "t3"]
        (⟨[], ["e"], 1, ⟨"t1", 0⟩⟩ : LogState String)
      = .ok ⟨[(⟨"t1", 0⟩, ["e"])], [], 3, ⟨"t3", 5⟩⟩
      ∧ (["t2", "t3"] : List String).getLast? = some "t3")
    ∧ ((⟨[(⟨"t1", 0⟩, ["e"])], [], 3, ⟨"t3", 5⟩⟩ : LogState String).currentTag
        = ⟨"t3", 5⟩
      ∧ (⟨[(⟨"t1", 0⟩, ["e"])], [], 3, ⟨"t3", 5⟩⟩ : LogState String).entries = []
      ∧ (⟨[(⟨"t1", 0⟩, ["e"])], [], 3, ⟨"t3", 5⟩⟩ : LogState String).parsedTags
        = (⟨[], ["e"], 1, ⟨"t1", 0⟩⟩ : LogState String).parsedTags
            + (["t2", "t3"] : List String).length) :=
  ⟨⟨rfl, rfl⟩,
   (multi_tag_batch true 1 0 5 ["t2", "t3"] ⟨[], ["e"], 1, ⟨"t1", 0⟩⟩).2
     ⟨[(⟨"t1", 0⟩, ["e"])], [], 3, ⟨"t3", 5⟩⟩ "t3" rfl rfl⟩

/-! ### Bounded runs: `all = false`, `max_tags_count = 1` -/

lemma sealIfNonempty_eq (st : LogState α) :
    sealIfNonempty st = { st with
      result := st.result
        ++ (if st.entries.isEmpty then [] else [(st.currentTag, st.entries)]),
      entries := [] } := by
  obtain ⟨r, e, p, ct⟩ := st
  cases e <;> simp [sealIfNonempty]

lemma commitStep_noskip (parse : String → Option α) (c : Commit)
    (st : LogState α) :
    commitStep false parse c st
      = { st with entries := st.entries ++ (parse c.message).toList } := by
  simp only [commitStep]
  rw [if_neg (by simp)]
  cases hp : parse c.message <;> simp [hp]

lemma revStep_first_tag (tags : List (Nat × String)) (o : Opts)
    (parse : String → Option α) (i : Nat) (c : Commit) (st : LogState α)
    (n1 : String)
    (hmatch : matchingTagNames tags o.tagSkipPattern c.oid = [n1])
    (hpt : ¬(o.maxTagsCount < (sealIfNonempty st).parsedTags)) :
    revStep tags o parse i c st
      = .ok (commitStep o.skipUnreleased parse c
          { sealIfNonempty st with
            parsedTags := (sealIfNonempty st).parsedTags + 1,
            currentTag := { name := n1, date := dateOfSeconds c.time } }) := by
  simp only [revStep, hmatch, processTags]
  rw [if_neg (fun h => hpt h.2.2)]

lemma revStep_break (tags : List (Nat × String)) (o : Opts)
    (parse : String → Option α) (i : Nat) (c : Commit) (st : LogState α)
    (n2 : String) (l2 : List String)
    (hmatch : matchingTagNames tags o.tagSkipPattern c.oid = n2 :: l2)
    (hall : o.all = false) (hi : 0 < i)
    (hgt : o.maxTagsCount < st.parsedTags) :
    revStep tags o parse i c st = .error (sealIfNonempty st) := by
  have hcond : o.all = false ∧ 0 < i
      ∧ o.maxTagsCount < (sealIfNonempty st).parsedTags :=
    ⟨hall, hi, by rw [sealIfNonempty_parsedTags]; exact hgt⟩
  simp only [revStep, hmatch, processTags]
  rw [if_pos hcond]

lemma revLoop_cons {tags : List (Nat × String)} {o : Opts}
    {parse : String → Option α} {i : Nat} {c : Commit} {cs : List Commit}
    {st s : LogState α} (h : revStep tags o parse i c st = .ok s) :
    revLoop tags o parse i (c :: cs) st = revLoop tags o parse (i + 1) cs s := by
  simp [revLoop, h]

lemma revLoop_cons_error {tags : List (Nat × String)} {o : Opts}
    {parse : String → Option α} {i : Nat} {c : Commit} {cs : List Commit}
    {st s : LogState α} (h : revStep tags o parse i c st = .error s) :
    revLoop tags o parse i (c :: cs) st = s := by
  simp [revLoop, h]

/-- Claim C2 (amended): over a history `s0 ++ d1 :: s1 ++ d2 :: rest` whose
qualifying tag matches number 3 in total, where the first two boundaries `d1`
(single tag `n1`) and `d2` (first tag `n2`) are distinct commits, with
`all = false`, `max_tags_count = 1`, `skip_unreleased = false`, and at least
one commit of the first tagged span `d1 :: s1` parsing successfully: the run
yields the leading "Unreleased" group exactly when a commit before `d1`
parses successfully, followed by exactly one sealed tagged group (`n1`'s);
traversal halts at the `d2` boundary (the result does not depend on `d2`'s
message, its remaining tags, or `rest`), and the boundary tag `n2` is never
opened as a group. -/
theorem bounded_run_single_sealed_group (tags : List (Nat × String))
    (pat : String) (parse : String → Option α) (today : Int)
    (s0 s1 rest : List Commit) (d1 d2 : Commit) (n1 n2 : String)
    (l2 : List String)
    (h0 : ∀ c ∈ s0, matchingTagNames tags pat c.oid = [])
    (h1 : matchingTagNames tags pat d1.oid = [n1])
    (h2 : ∀ c ∈ s1, matchingTagNames tags pat c.oid = [])
    (h3 : matchingTagNames tags pat d2.oid = n2 :: l2)
    (h4 : (d1 :: s1).filterMap (fun c => parse c.message) ≠ [])
    (h5 : 1 + (n2 :: l2).length
        + (rest.map (fun c => (matchingTagNames tags pat c.oid).length)).sum
        = 3) :
    parse_log tags ⟨pat, 1, false, false⟩ parse today
        (s0 ++ d1 :: (s1 ++ d2 :: rest)) []
      = (match s0.filterMap (fun c => parse c.message) with
         | [] => []
         | e :: es => [({ name := unreleasedStr, date := today }, e :: es)])
        ++ [({ name := n1, date := dateOfSeconds d1.time },
             (d1 :: s1).filterMap (fun c => parse c.message))] := by
  have hsk : (⟨pat, 1, false, false⟩ : Opts).skipUnreleased = false := rfl
  unfold parse_log
  rw [revLoop_span_noTags tags ⟨pat, 1, false, false⟩ parse hsk s0
      (d1 :: (s1 ++ d2 :: rest)) 0
      { result := [], entries := [], parsedTags := 1,
        currentTag := { name := unreleasedStr, date := today } } h0]
  show finalSeal (revLoop tags ⟨pat, 1, false, false⟩ parse (0 + s0.length)
      (d1 :: (s1 ++ d2 :: rest))
      { result := [], entries := s0.filterMap (fun c => parse c.message),
        parsedTags := 1,
        currentTag := { name := unreleasedStr, date := today } }) = _
  have hpt1 : ¬((⟨pat, 1, false, false⟩ : Opts).maxTagsCount
      < (sealIfNonempty (⟨[], s0.filterMap (fun c => parse c.message), 1,
          ⟨unreleasedStr, today⟩⟩ : LogState α)).parsedTags) := by
    rw [sealIfNonempty_parsedTags]
    exact (by omega : ¬((1 : Nat) < 1))
  have hseal1 : sealIfNonempty
      (⟨[], s0.filterMap (fun c => parse c.message), 1,
        ⟨unreleasedStr, today⟩⟩ : LogState α)
      = ⟨[] ++ (if (s0.filterMap (fun c => parse c.message)).isEmpty then []
            else [(⟨unreleasedStr, today⟩,
                   s0.filterMap (fun c => parse c.message))]),
         [], 1, ⟨unreleasedStr, today⟩⟩ :=
    sealIfNonempty_eq _
  have hstep1 : revStep tags ⟨pat, 1, false, false⟩ parse (0 + s0.length) d1
      (⟨[], s0.filterMap (fun c => parse c.message), 1,
        ⟨unreleasedStr, today⟩⟩ : LogState α)
      = .ok ⟨[] ++ (if (s0.filterMap (fun c => parse c.message)).isEmpty then []
            else [(⟨unreleasedStr, today⟩,
                   s0.filterMap (fun c => parse c.message))]),
          [] ++ (parse d1.message).toList, 2,
          ⟨n1, dateOfSeconds d1.time⟩⟩ := by
    rw [revStep_first_tag tags ⟨pat, 1, false, false⟩ parse (0 + s0.length) d1 _
        n1 h1 hpt1]
    rw [hsk, hseal1, commitStep_noskip]
  rw [revLoop_cons hstep1]
  rw [revLoop_span_noTags tags ⟨pat, 1, false, false⟩ parse hsk s1 (d2 :: rest)
      (0 + s0.length + 1) _ h2]
  show finalSeal (revLoop tags ⟨pat, 1, false, false⟩ parse
      (0 + s0.length + 1 + s1.length) (d2 :: rest)
      ⟨[] ++ (if (s0.filterMap (fun c => parse c.message)).isEmpty then []
            else [({ name := unreleasedStr, date := today },
                   s0.filterMap (fun c => parse c.message))]),
        ([] ++ (parse d1.message).toList)
          ++ s1.filterMap (fun c => parse c.message), 2,
        { name := n1, date := dateOfSeconds d1.time }⟩) = _
  have hfm : ([] ++ (parse d1.message).toList)
        ++ s1.filterMap (fun c => parse c.message)
      = (d1 :: s1).filterMap (fun c => parse c.message) := by
    cases hp : parse d1.message <;> simp [List.filterMap_cons, hp]
  rw [hfm]
  have hstep2 : revStep tags ⟨pat, 1, false, false⟩ parse
      (0 + s0.length + 1 + s1.length) d2
      ⟨[] ++ (if (s0.filterMap (fun c => parse c.message)).isEmpty then []
            else [({ name := unreleasedStr, date := today },
                   s0.filterMap (fun c => parse c.message))]),
        (d1 :: s1).filterMap (fun c => parse c.message), 2,
        { name := n1, date := dateOfSeconds d1.time }⟩
      = .error (sealIfNonempty
          ⟨[] ++ (if (s0.filterMap (fun c => parse c.message)).isEmpty then []
                else [({ name := unreleasedStr, date := today },
                       s0.filterMap (fun c => parse c.message))]),
            (d1 :: s1).filterMap (fun c => parse c.message), 2,
            { name := n1, date := dateOfSeconds d1.time }⟩) :=
    revStep_break tags ⟨pat, 1, false, false⟩ parse _ d2 _ n2 l2 h3 rfl
      (by omega) (by exact (by omega : (1 : Nat) < 2))
  rw [revLoop_cons_error hstep2, sealIfNonempty_eq]
  rcases hE1 : (d1 :: s1).filterMap (fun c => parse c.message) with _ | ⟨a, b⟩
  · exact absurd hE1 h4
  · rcases hE0 : s0.filterMap (fun c => parse c.message) with _ | ⟨e, es⟩
    · simp [finalSeal, hE0, hE1]
    · simp [finalSeal, hE0, hE1]

/-- Witness for C2 (amended): four commits, tags A, B, C on distinct commits,
everything parses; the run seals Unreleased=[m0] and A=[m1] and stops at B. -/
theorem bounded_run_single_sealed_group_witness :
    ((∀ c ∈ [(⟨5, 0, "m0"⟩ : Commit)],
        matchingTagNames [(10, "A"), (20, "B"), (30, "C")] "x" c.oid = [])
      ∧ matchingTagNames [(10, "A"), (20, "B"), (30, "C")] "x" 10 = ["A"]
      ∧ (∀ c ∈ ([] : List Commit),
          matchingTagNames [(10, "A"), (20, "B"), (30, "C")] "x" c.oid = [])
      ∧ matchingTagNames [(10, "A"), (20, "B"), (30, "C")] "x" 20 = "B" :: []
      ∧ ([⟨10, 86400, "m1"⟩] : List Commit).filterMap
          (fun c => (some c.message : Option String)) ≠ []
      ∧ 1 + ("B" :: ([] : List String)).length
          + (([⟨30, 0, "m3"⟩] : List Commit).map
              (fun c => (matchingTagNames [(10, "A"), (20, "B"), (30, "C")]
                  "x" c.oid).length)).sum = 3)
    ∧ parse_log [(10, "A"), (20, "B"), (30, "C")] ⟨"x", 1, false, false⟩
        (fun m => (some m : Option String)) 7
        ([⟨5, 0, "m0"⟩] ++ ⟨10, 86400, "m1"⟩ :: ([] ++ ⟨20, 0, "m2"⟩ :: [⟨30, 0, "m3"⟩])) []
      = [({ name := "Unreleased", date := 7 }, ["m0"]),
         ({ name := "A", date := 1 }, ["m1"])] :=
  ⟨⟨by decide, by decide, by decide, by decide, by decide, by decide⟩,
   (bounded_run_single_sealed_group [(10, "A"), (20, "B"), (30, "C")] "x"
      (fun m => (some m : Option String)) 7 [⟨5, 0, "m0"⟩] [] [⟨30, 0, "m3"⟩]
      ⟨10, 86400, "m1"⟩ ⟨20, 0, "m2"⟩ "A" "B" []
      (by decide) (by decide) (by decide) (by decide) (by decide)
      (by decide)).trans (by decide)⟩

/-- Counterexample to C2 as stated: two concrete bounded runs over histories
with 3 qualifying tags that do not produce "exactly one sealed tagged group":
(i) three tags on distinct commits, no message parses — the result is empty;
(ii) the first two tags are co-located on a non-first commit — only the
Unreleased group is sealed, no tagged group at all. -/
theorem bounded_run_counterexample :
    parse_log [(10, "A"), (20, "B"), (30, "C")] ⟨"x", 1, false, false⟩
        (fun _ => (none : Option String)) 7
        [⟨10, 0, "m1"⟩, ⟨20, 0, "m2"⟩, ⟨30, 0, "m3"⟩] [] = []
    ∧ parse_log [(20, "A"), (20, "B"), (30, "C")] ⟨"x", 1, false, false⟩
        (fun m => (some m : Option String)) 7
        [⟨5, 0, "m0"⟩, ⟨20, 0, "m1"⟩, ⟨30, 0, "m2"⟩] []
      = [({ name := "Unreleased", date := 7 }, ["m0"])] := by
  exact ⟨rfl, rfl⟩

/-! ### The concrete three-commit scenario -/

/-- Counterexample to C1 as stated: with an empty tag-skip pattern the code's
filter `!tag.1.contains(tag_skip_pattern)` rejects every tag (the empty
string is a substring of every name, `strContains "v1.0" "" = true`), so the
claimed scenario yields a single "Unreleased" group with all three entries,
not two groups. -/
theorem scenario_empty_skip_pattern_counterexample :
    strContains "v1.0" "" = true
    ∧ parse_log [(2, "v1.0")] ⟨"", 1, true, false⟩
        (fun m => (some m : Option String)) 7
        [⟨3, 300000, "feat: add X"⟩, ⟨2, 200000, "fix: correct Y"⟩,
         ⟨1, 100000, "feat: add Z"⟩] []
      = [(⟨"Unreleased", 7⟩, ["feat: add X", "fix: correct Y", "feat: add Z"])]
    ∧ (parse_log [(2, "v1.0")] ⟨"", 1, true, false⟩
        (fun m => (some m : Option String)) 7
        [⟨3, 300000, "feat: add X"⟩, ⟨2, 200000, "fix: correct Y"⟩,
         ⟨1, 100000, "feat: add Z"⟩] []).length ≠ 2 := by
  refine ⟨rfl, rfl, ?_⟩
  decide

/-- Claim C1 (amended): the three-commit scenario with a tag-skip pattern the
tag name does not contain (e.g. "rc", so that `v1.0` actually qualifies)
yields exactly the two claimed groups in order: Unreleased=[C3] then
v1.0=[C2, C1]. -/
theorem scenario_v1_grouping :
    parse_log [(2, "v1.0")] ⟨"rc", 1, true, false⟩
        (fun m => (some m : Option String)) 7
        [⟨3, 300000, "feat: add X"⟩, ⟨2, 200000, "fix: correct Y"⟩,
         ⟨1, 100000, "feat: add Z"⟩] []
      = [(⟨"Unreleased", 7⟩, ["feat: add X"]),
         (⟨"v1.0", 2⟩, ["fix: correct Y", "feat: add Z"])] := by
  rfl

/-! ### The sentinel is identified purely by its name -/

lemma matchingTagNames_all_unreleased (tags : List (Nat × String)) (pat : String)
    (oid : Nat)
    (h : ∀ t ∈ tags, strContains t.2 pat = false → t.2 = unreleasedStr) :
    ∀ n ∈ matchingTagNames tags pat oid, n = unreleasedStr := by
  intro n hn
  simp only [matchingTagNames, List.mem_map] at hn
  rcases hn with ⟨t, ht, rfl⟩
  rcases List.mem_filter.1 ht with ⟨htag, hcond⟩
  simp only [Bool.and_eq_true] at hcond
  exact h t htag (by simpa using hcond.2)

lemma processTags_unreleased_inv (a : Bool) (m i : Nat) (d : Int) :
    ∀ (ts : List String) (st : LogState α),
      (∀ n ∈ ts, n = unreleasedStr) → st.entries = [] →
      st.currentTag.name = unreleasedStr →
      (postState (processTags a m i d ts st)).result = st.result
      ∧ (postState (processTags a m i d ts st)).entries = []
      ∧ (postState (processTags a m i d ts st)).currentTag.name = unreleasedStr := by
  intro ts
  induction ts with
  | nil => intro st _ hE hN; exact ⟨rfl, hE, hN⟩
  | cons name rest ih =>
    intro st hnames hE hN
    simp only [processTags]
    have h1 : sealIfNonempty st = st := by simp [sealIfNonempty, hE]
    rw [h1]
    split
    · exact ⟨rfl, hE, hN⟩
    · have hrec := ih { st with parsedTags := st.parsedTags + 1,
                                currentTag := { name := name, date := d } }
        (fun n hn => hnames n (List.mem_cons_of_mem _ hn)) hE
        (hnames name (List.mem_cons_self name rest))
      exact hrec

lemma revLoop_unreleased_inv (tags : List (Nat × String)) (o : Opts)
    (parse : String → Option α) (hskip : o.skipUnreleased = true)
    (htags : ∀ t ∈ tags, strContains t.2 o.tagSkipPattern = false →
        t.2 = unreleasedStr) :
    ∀ (cs : List Commit) (i : Nat) (st : LogState α),
      st.entries = [] → st.currentTag.name = unreleasedStr →
      (revLoop tags o parse i cs st).result = st.result
      ∧ (revLoop tags o parse i cs st).entries = []
      ∧ (revLoop tags o parse i cs st).currentTag.name = unreleasedStr := by
  intro cs
  induction cs with
  | nil => intro i st hE hN; exact ⟨rfl, hE, hN⟩
  | cons c cs ih =>
    intro i st hE hN
    have hpt := processTags_unreleased_inv o.all o.maxTagsCount i
      (dateOfSeconds c.time) (matchingTagNames tags o.tagSkipPattern c.oid) st
      (matchingTagNames_all_unreleased tags o.tagSkipPattern c.oid htags) hE hN
    rcases hp : processTags o.all o.maxTagsCount i (dateOfSeconds c.time)
        (matchingTagNames tags o.tagSkipPattern c.oid) st with s | s
    · rw [hp] at hpt
      simp only [postState] at hpt
      have hloop : revLoop tags o parse i (c :: cs) st = s := by
        simp [revLoop, revStep, hp]
      rw [hloop]
      exact hpt
    · rw [hp] at hpt
      simp only [postState] at hpt
      have hcond : o.skipUnreleased = true ∧ s.currentTag.name = unreleasedStr :=
        ⟨hskip, hpt.2.2⟩
      have hcs : commitStep o.skipUnreleased parse c s = s := by
        simp only [commitStep, if_pos hcond]
      have hloop : revLoop tags o parse i (c :: cs) st
          = revLoop tags o parse (i + 1) cs s := by
        simp [revLoop, revStep, hp, hcs]
      rw [hloop]
      have hgoal := ih (i + 1) s hpt.2.1 hpt.2.2
      exact ⟨hgoal.1.trans hpt.1, hgoal.2.1, hgoal.2.2⟩

/-- Claim C10: the sentinel is identified purely by the name string
"Unreleased".  If every qualifying tag in the catalog is literally named
"Unreleased" and `skip_unreleased` holds, every commit is skipped without
parsing — the stored result stays exactly `prev`, the same as running with no
tags at all. -/
theorem unreleased_named_tag_behaves_as_sentinel (tags : List (Nat × String))
    (o : Opts) (parse : String → Option α) (today : Int) (commits : List Commit)
    (prev : List (ParsedTag × List α)) (hskip : o.skipUnreleased = true)
    (htags : ∀ t ∈ tags, strContains t.2 o.tagSkipPattern = false →
        t.2 = unreleasedStr) :
    parse_log tags o parse today commits prev = prev
    ∧ parse_log tags o parse today commits prev
        = parse_log [] o parse today commits prev := by
  have key : ∀ (tgs : List (Nat × String)),
      (∀ t ∈ tgs, strContains t.2 o.tagSkipPattern = false → t.2 = unreleasedStr) →
      parse_log tgs o parse today commits prev = prev := by
    intro tgs htgs
    unfold parse_log
    have h := revLoop_unreleased_inv tgs o parse hskip htgs commits 0
      { result := prev, entries := [], parsedTags := 1,
        currentTag := { name := unreleasedStr, date := today } } rfl rfl
    simp [finalSeal, h.2.1, h.1]
  have h1 := key tags htags
  have h2 := key [] (by simp)
  exact ⟨h1, h1.trans h2.symm⟩

/-- Witness for C10: a real tag named "Unreleased" on the middle commit,
`skip_unreleased = true`, pre-existing stored group preserved. -/
theorem unreleased_named_tag_behaves_as_sentinel_witness :
    ((⟨"rc", 1, true, true⟩ : Opts).skipUnreleased = true
      ∧ ∀ t ∈ [(2, "Unreleased")],
          strContains t.2 (⟨"rc", 1, true, true⟩ : Opts).tagSkipPattern = false →
          t.2 = unreleasedStr)
    ∧ parse_log [(2, "Unreleased")] ⟨"rc", 1, true, true⟩
        (fun m => (some m : Option String)) 7
        [⟨3, 300000, "feat: add X"⟩, ⟨2, 200000, "fix: correct Y"⟩,
         ⟨1, 100000, "feat: add Z"⟩] [(⟨"v9", 0⟩, ["old"])]
        = [(⟨"v9", 0⟩, ["old"])]
    ∧ parse_log [(2, "Unreleased")] ⟨"rc", 1, true, true⟩
        (fun m => (some m : Option String)) 7
        [⟨3, 300000, "feat: add X"⟩, ⟨2, 200000, "fix: correct Y"⟩,
         ⟨1, 100000, "feat: add Z"⟩] [(⟨"v9", 0⟩, ["old"])]
        = parse_log [] ⟨"rc", 1, true, true⟩
            (fun m => (some m : Option String)) 7
            [⟨3, 300000, "feat: add X"⟩, ⟨2, 200000, "fix: correct Y"⟩,
             ⟨1, 100000, "feat: add Z"⟩] [(⟨"v9", 0⟩, ["old"])] :=
  ⟨⟨rfl, by decide⟩,
   (unreleased_named_tag_behaves_as_sentinel [(2, "Unreleased")]
      ⟨"rc", 1, true, true⟩ (fun m => (some m : Option String)) 7
      [⟨3, 300000, "feat: add X"⟩, ⟨2, 200000, "fix: correct Y"⟩,
       ⟨1, 100000, "feat: add Z"⟩] [(⟨"v9", 0⟩, ["old"])] rfl (by decide)).1,
   (unreleased_named_tag_behaves_as_sentinel [(2, "Unreleased")]
      ⟨"rc", 1, true, true⟩ (fun m => (some m : Option String)) 7
      [⟨3, 300000, "feat: add X"⟩, ⟨2, 200000, "fix: correct Y"⟩,
       ⟨1, 100000, "feat: add Z"⟩] [(⟨"v9", 0⟩, ["old"])] rfl (by decide)).2⟩

/-- Witness for C7 at a concrete failing resolution. -/
theorem parse_log_call_resolution_error_witness :
    parse_log_call (Except.error "invalid range") [] ⟨"", 1, false, false⟩
      (fun _ => (none : Option Nat)) 0 [] = ([], Except.error "invalid range") :=
  parse_log_call_resolution_error (Except.error "invalid range") []
    ⟨"", 1, false, false⟩ (fun _ => (none : Option Nat)) 0 [] "invalid range" rfl

end GitJournal
